import Mathlib

/-!
Shallow embedding of the inference-engine core of `src/main_4.py`
(`KnowledgeBase`, `KnowledgeGraph`, and the engine-facing methods of
`ManufacturingExpertSystem`), together with theorems settling the spec
claims about it.

Modelling conventions:
* Python `float` confidences are modelled as `ℚ`; the program only ever
  stores decimal literals and compares them, which `ℚ` reflects exactly.
* The Python `dict` `self.rules` (insertion-ordered, keys assigned as
  `len(self.rules)`) is modelled as an insertion-ordered association list
  `List (Nat × Rule)`; `add_rule` appends with key `rules.length`,
  matching `rule_id = len(self.rules)`.
* The Python `set` `self.facts` is modelled as a duplicate-free list:
  `set.add` inserts only when absent, and only membership is ever
  consulted, so the model has exactly the observable set semantics.
-/

/-- A rule record, the value stored in the `self.rules` dict by
`KnowledgeBase.add_rule` (a dict with keys `conditions`, `conclusion`,
`confidence`). -/
structure Rule where
  conditions : List String
  conclusion : String
  confidence : ℚ
deriving DecidableEq, Repr

/-- A conclusion record as produced by `KnowledgeBase.evaluate_rules`
(a dict with keys `conclusion`, `confidence`, `rule_id`). -/
structure Conclusion where
  conclusion : String
  confidence : ℚ
  rule_id : Nat
deriving DecidableEq, Repr

/-- The state of the Python `KnowledgeBase` object: the rule dict, the
fact set and the history log. -/
structure KnowledgeBase where
  rules : List (Nat × Rule)
  facts : List String
  history : List String
deriving DecidableEq, Repr

/-- `KnowledgeBase.__init__`: empty rules, facts and history. -/
def KnowledgeBase.empty : KnowledgeBase :=
  { rules := [], facts := [], history := [] }

/-- `KnowledgeBase.add_rule`: stores the rule under `rule_id = len(self.rules)`.
The Python method performs no validation and returns `None`. -/
def KnowledgeBase.add_rule (kb : KnowledgeBase) (conditions : List String)
    (conclusion : String) (confidence : ℚ) : KnowledgeBase :=
  { kb with rules :=
      kb.rules ++ [(kb.rules.length,
        { conditions := conditions, conclusion := conclusion, confidence := confidence })] }

/-- `KnowledgeBase.add_fact`: `self.facts.add(fact)` (a set add, hence a
no-op when the fact is already present) followed by
`self.history.append(f"Added indicator: \x7bfact\x7d")`. -/
def KnowledgeBase.add_fact (kb : KnowledgeBase) (fact : String) : KnowledgeBase :=
  { kb with
      facts := if fact ∈ kb.facts then kb.facts else kb.facts ++ [fact],
      history := kb.history ++ ["Added indicator: " ++ fact] }

/-- `KnowledgeBase.evaluate_rules`: for each rule, in dict insertion order,
append a conclusion record when `all(cond in self.facts for cond in
rule['conditions'])`. -/
def KnowledgeBase.evaluate_rules (kb : KnowledgeBase) : List Conclusion :=
  kb.rules.filterMap fun p =>
    if ∀ c ∈ p.2.conditions, c ∈ kb.facts then
      some { conclusion := p.2.conclusion, confidence := p.2.confidence, rule_id := p.1 }
    else none

/-- State-passing translation of the `evaluate_rules` method body: the body
builds a local `conclusions` list from reads of `self.rules` and
`self.facts` and returns it; it assigns to no attribute of `self`, so the
post-state is the pre-state. -/
def KnowledgeBase.evaluate_rules_run (kb : KnowledgeBase) :
    KnowledgeBase × List Conclusion :=
  (kb, kb.evaluate_rules)

/-- `ManufacturingExpertSystem.clear_indicators`: `self.kb.facts.clear()`
followed by `self.kb.history.append("Cleared all indicators")` (the UI
list-widget calls touch no engine state). -/
def clear_indicators (kb : KnowledgeBase) : KnowledgeBase :=
  { kb with facts := [], history := kb.history ++ ["Cleared all indicators"] }

/-- Python `str.strip()`: drop leading and trailing whitespace, modelled on
the character list underlying the string. -/
def pyStrip (s : String) : String :=
  ⟨((s.data.dropWhile Char.isWhitespace).reverse.dropWhile Char.isWhitespace).reverse⟩

/-- Python `str.lower()` (ASCII case-fold, which covers every label the
program handles). -/
def pyLower (s : String) : String :=
  ⟨s.data.map Char.toLower⟩

/-- `ManufacturingExpertSystem.add_indicator`: normalize the input with
`.strip().lower()` and, only when the result is non-empty (Python
truthiness), pass it to `KnowledgeBase.add_fact`. The UI widget calls
touch no engine state. -/
def add_indicator (kb : KnowledgeBase) (input : String) : KnowledgeBase :=
  let indicator := pyLower (pyStrip input)
  if indicator = "" then kb else kb.add_fact indicator

/-- Stable descending insertion by confidence: the element being inserted
comes from earlier in the original list, so it goes before the first
element whose confidence does not exceed it. -/
def insertByConf (c : Conclusion) : List Conclusion → List Conclusion
  | [] => [c]
  | d :: ds =>
    if d.confidence ≤ c.confidence then c :: d :: ds else d :: insertByConf c ds

/-- `conclusions.sort(key=lambda x: x['confidence'], reverse=True)`:
Python's sort is stable and `reverse=True` keeps equal keys in original
order, so it is extensionally the stable descending insertion sort. -/
def sortByConfDesc : List Conclusion → List Conclusion
  | [] => []
  | c :: cs => insertByConf c (sortByConfDesc cs)

/-- The conclusion list produced by `ManufacturingExpertSystem.analyze`:
`evaluate_rules` followed by the stable sort on confidence descending.
(The Python code skips the sort when the list is empty, which sorts to
itself anyway; the dialog and history formatting are presentation.) -/
def KnowledgeBase.analyze (kb : KnowledgeBase) : List Conclusion :=
  sortByConfDesc kb.evaluate_rules

/-- Rule `rid` fires: `evaluate_rules` output contains a conclusion record
carrying that rule id. -/
def ruleFires (kb : KnowledgeBase) (rid : Nat) : Prop :=
  ∃ c ∈ kb.evaluate_rules, c.rule_id = rid

instance (kb : KnowledgeBase) (rid : Nat) : Decidable (ruleFires kb rid) :=
  List.decidableBEx _ _

/-- The `nx.DiGraph` built by `KnowledgeGraph`: edge set in insertion
order; `add_edge` on an existing edge is a no-op, so no multi-edges. -/
structure KnowledgeGraph where
  edges : List (String × String)
deriving DecidableEq, Repr

/-- `KnowledgeGraph.__init__`: empty graph. -/
def KnowledgeGraph.emptyGraph : KnowledgeGraph := ⟨[]⟩

/-- `nx.DiGraph.add_edge u v`: inserts the edge (and thereby its endpoint
nodes) unless already present. -/
def KnowledgeGraph.add_edge (g : KnowledgeGraph) (u v : String) : KnowledgeGraph :=
  if (u, v) ∈ g.edges then g else ⟨g.edges ++ [(u, v)]⟩

/-- `KnowledgeGraph.add_rule_to_graph`: one `add_edge(condition, conclusion)`
per condition. -/
def KnowledgeGraph.add_rule_to_graph (g : KnowledgeGraph) (conditions : List String)
    (conclusion : String) : KnowledgeGraph :=
  conditions.foldl (fun h c => h.add_edge c conclusion) g

/-- The node set of the `nx.DiGraph`: exactly the endpoints of inserted
edges (the program never calls `add_node` directly). -/
def KnowledgeGraph.nodes (g : KnowledgeGraph) : List String :=
  (g.edges.map Prod.fst ++ g.edges.map Prod.snd).dedup

/-- The loop at the end of `setup_manufacturing_knowledge`: fold
`add_rule_to_graph` over the registered rules in dict order, starting from
the empty graph. -/
def buildGraph (rules : List (Nat × Rule)) : KnowledgeGraph :=
  rules.foldl (fun g p => g.add_rule_to_graph p.2.conditions p.2.conclusion)
    KnowledgeGraph.emptyGraph

/-- Membership in the `evaluate_rules` output, characterised: a conclusion
record is emitted exactly for the rule entries all of whose conditions are
current facts. -/
lemma mem_evaluate_iff (kb : KnowledgeBase) (c : Conclusion) :
    c ∈ kb.evaluate_rules ↔
      ∃ p ∈ kb.rules, (∀ x ∈ p.2.conditions, x ∈ kb.facts) ∧
        c = ⟨p.2.conclusion, p.2.confidence, p.1⟩ := by
  constructor
  · intro h
    rcases List.mem_filterMap.mp h with ⟨p, hp, he⟩
    by_cases hc : ∀ x ∈ p.2.conditions, x ∈ kb.facts
    · rw [if_pos hc] at he
      exact ⟨p, hp, hc, (Option.some_inj.mp he).symm⟩
    · rw [if_neg hc] at he
      cases he
  · rintro ⟨p, hp, hc, rfl⟩
    exact List.mem_filterMap.mpr ⟨p, hp, by rw [if_pos hc]⟩

/-- `add_fact` leaves the rule mapping untouched. -/
lemma add_fact_rules (kb : KnowledgeBase) (f : String) :
    (kb.add_fact f).rules = kb.rules := rfl

/-- Fact membership after `add_fact`: the old facts plus the new label. -/
lemma add_fact_mem_facts (kb : KnowledgeBase) (f x : String) :
    x ∈ (kb.add_fact f).facts ↔ x ∈ kb.facts ∨ x = f := by
  unfold KnowledgeBase.add_fact
  by_cases h : f ∈ kb.facts
  · rw [if_pos h]
    constructor
    · exact Or.inl
    · rintro (hx | rfl)
      · exact hx
      · exact h
  · rw [if_neg h]
    simp [List.mem_append]

/-- In an association list with duplicate-free keys, a key determines its
value. -/
lemma assoc_eq_of_nodup_keys {l : List (Nat × Rule)}
    (h : (l.map Prod.fst).Nodup) {k : Nat} {a b : Rule}
    (ha : (k, a) ∈ l) (hb : (k, b) ∈ l) : a = b := by
  induction l with
  | nil => cases ha
  | cons p l ih =>
    rw [List.map_cons, List.nodup_cons] at h
    rcases List.mem_cons.mp ha with rfl | ha'
    · rcases List.mem_cons.mp hb with hb' | hb'
      · exact congrArg Prod.snd hb'.symm
      · exact absurd (List.mem_map_of_mem Prod.fst hb') h.1
    · rcases List.mem_cons.mp hb with rfl | hb'
      · exact absurd (List.mem_map_of_mem Prod.fst ha') h.1
      · exact ih h.2 ha' hb'

/-- Firing characterised through the rule's own conditions, for a rule set
with duplicate-free ids. -/
lemma ruleFires_iff (kb : KnowledgeBase) (rid : Nat) (r : Rule)
    (hmem : (rid, r) ∈ kb.rules) (hkeys : (kb.rules.map Prod.fst).Nodup) :
    ruleFires kb rid ↔ ∀ c ∈ r.conditions, c ∈ kb.facts := by
  constructor
  · rintro ⟨c, hc, hcid⟩
    rcases (mem_evaluate_iff kb c).mp hc with ⟨p, hp, hconds, rfl⟩
    have hid : p.1 = rid := hcid
    have hp' : (rid, p.2) ∈ kb.rules := by
      rwa [← hid]
    have hpr : p.2 = r := assoc_eq_of_nodup_keys hkeys hp' hmem
    rwa [hpr] at hconds
  · intro hconds
    exact ⟨⟨r.conclusion, r.confidence, rid⟩,
      (mem_evaluate_iff kb _).mpr ⟨(rid, r), hmem, hconds, rfl⟩, rfl⟩

/-- Scenario-1 knowledge base, built through the engine operations: the two
tooling rules of `setup_manufacturing_knowledge` and the three facts that
satisfy both. -/
def demoKB : KnowledgeBase :=
  ((((KnowledgeBase.empty.add_rule ["dimensional_variation", "tool_wear"]
      "possible_tooling_problem" (mkRat 7 10)).add_rule
      ["dimensional_variation", "tool_wear", "vibration"]
      "severe_tooling_issue" (mkRat 9 10)).add_fact
      "dimensional_variation").add_fact "tool_wear").add_fact "vibration"

/-- The first scenario-1 rule. -/
def demoRule0 : Rule :=
  ⟨["dimensional_variation", "tool_wear"], "possible_tooling_problem", mkRat 7 10⟩

/-- C1: a registered rule fires exactly when each of its condition labels is
a current fact (a pure subset check); adding any fact outside its
conditions never changes whether it fires, and the characterisation
depends only on the rule's own conditions, so each rule is judged
independently of all other rules. -/
theorem evaluate_fires_iff_conditions_subset (kb : KnowledgeBase)
    (rid : Nat) (r : Rule) (hmem : (rid, r) ∈ kb.rules)
    (hkeys : (kb.rules.map Prod.fst).Nodup) :
    (ruleFires kb rid ↔ ∀ c ∈ r.conditions, c ∈ kb.facts) ∧
      ∀ f, f ∉ r.conditions →
        (ruleFires (kb.add_fact f) rid ↔ ruleFires kb rid) := by
  refine ⟨ruleFires_iff kb rid r hmem hkeys, ?_⟩
  intro f hf
  have hmem' : (rid, r) ∈ (kb.add_fact f).rules := hmem
  have hkeys' : ((kb.add_fact f).rules.map Prod.fst).Nodup := hkeys
  rw [ruleFires_iff _ rid r hmem' hkeys', ruleFires_iff kb rid r hmem hkeys]
  constructor
  · intro h c hc
    rcases (add_fact_mem_facts kb f c).mp (h c hc) with hx | rfl
    · exact hx
    · exact absurd hc hf
  · intro h c hc
    exact (add_fact_mem_facts kb f c).mpr (Or.inl (h c hc))

/-- C1 witness: in the scenario-1 knowledge base, rule 0 fires, and adding
the unrelated fact `overheating` does not change that. -/
theorem evaluate_fires_iff_conditions_subset_witness :
    ruleFires demoKB 0 ∧
      (ruleFires (demoKB.add_fact "overheating") 0 ↔ ruleFires demoKB 0) :=
  ⟨((evaluate_fires_iff_conditions_subset demoKB 0 demoRule0 (by decide)
      (by decide)).1).mpr (by decide),
    (evaluate_fires_iff_conditions_subset demoKB 0 demoRule0 (by decide)
      (by decide)).2 "overheating" (by decide)⟩

/-- Inserting with `insertByConf` permutes: the result holds the new
element and the old ones. -/
lemma insertByConf_perm (c : Conclusion) (l : List Conclusion) :
    (insertByConf c l).Perm (c :: l) := by
  induction l with
  | nil => exact List.Perm.refl _
  | cons d ds ih =>
    by_cases h : d.confidence ≤ c.confidence
    · rw [insertByConf, if_pos h]
    · rw [insertByConf, if_neg h]
      exact ((ih.cons d).trans (List.Perm.swap c d ds)).symm.symm

/-- `sortByConfDesc` permutes its input. -/
lemma sortByConfDesc_perm (l : List Conclusion) :
    (sortByConfDesc l).Perm l := by
  induction l with
  | nil => exact List.Perm.refl _
  | cons c cs ih =>
    exact (insertByConf_perm c (sortByConfDesc cs)).trans (ih.cons c)

/-- The ordering the sorted output satisfies: strictly larger confidence
first, and on equal confidences the smaller (earlier-registered) rule id
first. -/
def rankedBefore (a b : Conclusion) : Prop :=
  b.confidence < a.confidence ∨
    (a.confidence = b.confidence ∧ a.rule_id < b.rule_id)

lemma rankedBefore_conf_le {a b : Conclusion} (h : rankedBefore a b) :
    b.confidence ≤ a.confidence := by
  rcases h with h | ⟨h, _⟩
  · exact le_of_lt h
  · exact le_of_eq h.symm

/-- Inserting an element whose rule id is below every id in an already
`rankedBefore`-sorted list keeps the list sorted. -/
lemma insertByConf_pairwise (x : Conclusion) (l : List Conclusion)
    (hl : l.Pairwise rankedBefore) (hid : ∀ y ∈ l, x.rule_id < y.rule_id) :
    (insertByConf x l).Pairwise rankedBefore := by
  induction l with
  | nil => simp [insertByConf]
  | cons d ds ih =>
    rw [List.pairwise_cons] at hl
    obtain ⟨hd, hds⟩ := hl
    by_cases h : d.confidence ≤ x.confidence
    · rw [insertByConf, if_pos h]
      refine List.pairwise_cons.mpr ⟨?_, List.pairwise_cons.mpr ⟨hd, hds⟩⟩
      intro z hz
      rcases List.mem_cons.mp hz with rfl | hz'
      · rcases lt_or_eq_of_le h with hlt | heq
        · exact Or.inl hlt
        · exact Or.inr ⟨heq.symm, hid z (List.mem_cons_self _ _)⟩
      · have hzd : z.confidence ≤ d.confidence := rankedBefore_conf_le (hd z hz')
        rcases lt_or_eq_of_le (le_trans hzd h) with hlt | heq
        · exact Or.inl hlt
        · exact Or.inr ⟨heq.symm, hid z (List.mem_cons_of_mem _ hz')⟩
    · rw [insertByConf, if_neg h]
      push_neg at h
      refine List.pairwise_cons.mpr
        ⟨?_, ih hds fun y hy => hid y (List.mem_cons_of_mem _ hy)⟩
      intro z hz
      have hz' : z = x ∨ z ∈ ds :=
        List.mem_cons.mp ((insertByConf_perm x ds).mem_iff.mp hz)
      rcases hz' with rfl | hz'
      · exact Or.inl h
      · exact hd z hz'

/-- Sorting a list whose rule ids are strictly increasing yields a
`rankedBefore`-sorted list: confidence descending, ties kept in id
order. -/
lemma sortByConfDesc_pairwise (l : List Conclusion)
    (h : l.Pairwise fun a b => a.rule_id < b.rule_id) :
    (sortByConfDesc l).Pairwise rankedBefore := by
  induction l with
  | nil => simp [sortByConfDesc]
  | cons x xs ih =>
    rw [List.pairwise_cons] at h
    exact insertByConf_pairwise x _ (ih h.2)
      fun y hy => h.1 y ((sortByConfDesc_perm xs).mem_iff.mp hy)

/-- The conclusions emitted by `evaluate_rules` carry strictly increasing
rule ids whenever the rule mapping's keys are strictly increasing (which
`add_rule`'s sequential id assignment guarantees). -/
lemma evaluate_rules_id_pairwise (kb : KnowledgeBase)
    (h : (kb.rules.map Prod.fst).Pairwise (· < ·)) :
    kb.evaluate_rules.Pairwise fun a b => a.rule_id < b.rule_id := by
  have h' : kb.rules.Pairwise fun p q => p.1 < q.1 := List.pairwise_map.mp h
  refine List.Pairwise.filterMap _ ?_ h'
  intro p q hpq b hb b' hb'
  have hbid : b.rule_id = p.1 := by
    by_cases hc : ∀ x ∈ p.2.conditions, x ∈ kb.facts
    · rw [if_pos hc, Option.mem_def, Option.some_inj] at hb
      rw [← hb]
    · rw [if_neg hc] at hb
      cases hb
  have hbid' : b'.rule_id = q.1 := by
    by_cases hc : ∀ x ∈ q.2.conditions, x ∈ kb.facts
    · rw [if_pos hc, Option.mem_def, Option.some_inj] at hb'
      rw [← hb']
    · rw [if_neg hc] at hb'
      cases hb'
  rw [hbid, hbid']
  exact hpq

/-- C2: on any knowledge base whose rule ids are strictly increasing in
registration order (as `add_rule` assigns them), the `analyze` output is
the `evaluate_rules` output reordered so that confidence strictly
decreases, except that equal confidences stay in rule-registration (id)
order: a stable descending sort. -/
theorem analyze_sorted_stable (kb : KnowledgeBase)
    (h : (kb.rules.map Prod.fst).Pairwise (· < ·)) :
    kb.analyze.Pairwise rankedBefore ∧
      kb.analyze.Perm kb.evaluate_rules :=
  ⟨sortByConfDesc_pairwise _ (evaluate_rules_id_pairwise kb h),
    sortByConfDesc_perm _⟩

/-- C2 witness: the scenario-1 knowledge base instantiates the sortedness
and permutation statement. -/
theorem analyze_sorted_stable_witness :
    demoKB.analyze.Pairwise rankedBefore ∧
      demoKB.analyze.Perm demoKB.evaluate_rules :=
  analyze_sorted_stable demoKB (by decide)

example : demoKB.analyze =
    [⟨"severe_tooling_issue", mkRat 9 10, 1⟩,
     ⟨"possible_tooling_problem", mkRat 7 10, 0⟩] := by decide

/-- C3 counterexample: registering a rule with empty conditions and
confidence 2 (both invalid per the claim) does not fail and does not leave
the rule set unchanged — the Python method has no validation, so the
doubly-invalid rule is stored under id 0. -/
theorem add_rule_accepts_invalid_counterexample :
    (KnowledgeBase.empty.add_rule [] "x" (mkRat 2 1)).rules ≠
        KnowledgeBase.empty.rules ∧
      (0, (⟨[], "x", mkRat 2 1⟩ : Rule)) ∈
        (KnowledgeBase.empty.add_rule [] "x" (mkRat 2 1)).rules := by
  constructor
  · decide
  · decide

/-- C3 amended: rule registration never fails and performs no validation.
For any conditions (empty included) and any confidence (outside (0,1]
included) the rule is stored under the next sequential id
`len(self.rules)`; every previously registered rule entry is retained, and
facts and history are untouched. The method returns `None`, so no rule id
is returned to the caller. -/
theorem add_rule_always_registers (kb : KnowledgeBase) (conds : List String)
    (concl : String) (conf : ℚ) :
    (kb.add_rule conds concl conf).rules.length = kb.rules.length + 1 ∧
      (∀ p ∈ kb.rules, p ∈ (kb.add_rule conds concl conf).rules) ∧
      (kb.rules.length, (⟨conds, concl, conf⟩ : Rule)) ∈
        (kb.add_rule conds concl conf).rules ∧
      (kb.add_rule conds concl conf).facts = kb.facts ∧
      (kb.add_rule conds concl conf).history = kb.history := by
  refine ⟨?_, ?_, ?_, rfl, rfl⟩
  · simp [KnowledgeBase.add_rule]
  · intro p hp
    exact List.mem_append_left _ hp
  · exact List.mem_append_right _ (List.mem_singleton_self _)

/-- A knowledge base holding one rule with an empty conditions list,
registered through `add_rule`, plus one fact. -/
def kbEmptyCondRule : KnowledgeBase :=
  (KnowledgeBase.empty.add_rule [] "possible_tooling_problem" (mkRat 1 1)).add_fact
    "tool_wear"

/-- C4 counterexample: with a registered empty-conditions rule, `clear()`
followed by `evaluate()` is not empty — the subset check is vacuously true
on an empty conditions list, so the rule fires even with no facts. -/
theorem clear_evaluate_counterexample :
    (clear_indicators kbEmptyCondRule).evaluate_rules ≠ [] := by decide

/-- C4 amended: provided every registered rule has at least one condition
(as every rule of the built-in catalog does), `clear()` followed by
`evaluate()` yields the empty conclusion sequence, whatever the prior
facts and history; no error is possible. -/
theorem clear_then_evaluate_empty (kb : KnowledgeBase)
    (h : ∀ p ∈ kb.rules, p.2.conditions ≠ []) :
    (clear_indicators kb).evaluate_rules = [] := by
  rw [KnowledgeBase.evaluate_rules, List.filterMap_eq_nil_iff]
  intro p hp
  rw [if_neg]
  intro hall
  rcases List.exists_mem_of_ne_nil _ (h p hp) with ⟨c, hc⟩
  exact absurd (hall c hc) (List.not_mem_nil c)

/-- C4 witness: clearing the scenario-1 knowledge base makes `evaluate`
empty. -/
theorem clear_then_evaluate_empty_witness :
    (clear_indicators demoKB).evaluate_rules = [] :=
  clear_then_evaluate_empty demoKB (by decide)

/-- C5: `add_indicator` strips and lower-cases the label before insertion;
when the normalized label is empty (empty or whitespace-only input) the
whole state — facts and history alike — is left untouched and no error
occurs, and otherwise exactly the normalized label is inserted and one
history entry recorded. -/
theorem add_indicator_normalizes (kb : KnowledgeBase) (s : String) :
    (pyLower (pyStrip s) = "" → add_indicator kb s = kb) ∧
      (∀ x, x ∈ (add_indicator kb s).facts ↔
        x ∈ kb.facts ∨ (pyLower (pyStrip s) ≠ "" ∧ x = pyLower (pyStrip s))) ∧
      (pyLower (pyStrip s) ≠ "" →
        (add_indicator kb s).history =
          kb.history ++ ["Added indicator: " ++ pyLower (pyStrip s)]) := by
  by_cases h : pyLower (pyStrip s) = ""
  · refine ⟨fun _ => ?_, fun x => ?_, fun hne => absurd h hne⟩
    · rw [add_indicator, if_pos h]
    · rw [add_indicator, if_pos h]
      exact ⟨Or.inl, fun hx => by
        rcases hx with hx | ⟨hne, _⟩
        · exact hx
        · exact absurd h hne⟩
  · refine ⟨fun he => absurd he h, fun x => ?_, fun _ => ?_⟩
    · rw [add_indicator, if_neg h]
      rw [add_fact_mem_facts]
      constructor
      · rintro (hx | rfl)
        · exact Or.inl hx
        · exact Or.inr ⟨h, rfl⟩
      · rintro (hx | ⟨_, rfl⟩)
        · exact Or.inl hx
        · exact Or.inr rfl
    · rw [add_indicator, if_neg h]
      rfl

/-- C5 witness: a whitespace-only input leaves the scenario-1 knowledge
base unchanged, and a padded mixed-case input inserts the normalized
label. -/
theorem add_indicator_normalizes_witness :
    add_indicator demoKB "   " = demoKB ∧
      "jamming" ∈ (add_indicator demoKB "  Jamming ").facts :=
  ⟨(add_indicator_normalizes demoKB "   ").1 (by decide),
    ((add_indicator_normalizes demoKB "  Jamming ").2.1 "jamming").mpr
      (Or.inr (by decide))⟩

/-- C6: adding the same non-blank label twice leaves the fact set exactly
as one addition does (the second `set.add` is a no-op), while the history
log records both calls. -/
theorem add_fact_idempotent (kb : KnowledgeBase) (x : String)
    (_hx : pyLower (pyStrip x) ≠ "") :
    ((kb.add_fact x).add_fact x).facts = (kb.add_fact x).facts ∧
      ((kb.add_fact x).add_fact x).history =
        kb.history ++ ["Added indicator: " ++ x, "Added indicator: " ++ x] := by
  have hx1 : x ∈ (kb.add_fact x).facts :=
    (add_fact_mem_facts kb x x).mpr (Or.inr rfl)
  constructor
  · show (if x ∈ (kb.add_fact x).facts then (kb.add_fact x).facts
      else (kb.add_fact x).facts ++ [x]) = (kb.add_fact x).facts
    rw [if_pos hx1]
  · show ((kb.history ++ ["Added indicator: " ++ x]) ++
      ["Added indicator: " ++ x]) = _
    rw [List.append_assoc]
    rfl

/-- C6 witness: double insertion of `jamming` into the scenario-1 base. -/
theorem add_fact_idempotent_witness :
    ((demoKB.add_fact "jamming").add_fact "jamming").facts =
        (demoKB.add_fact "jamming").facts ∧
      ((demoKB.add_fact "jamming").add_fact "jamming").history =
        demoKB.history ++
          ["Added indicator: " ++ "jamming", "Added indicator: " ++ "jamming"] :=
  add_fact_idempotent demoKB "jamming" (by decide)

/-- C7: firing is monotone in the fact set — over the same rules, every
conclusion record that `evaluate_rules` emits under facts `F` is also
emitted under any superset `F'` (histories are irrelevant to the check). -/
theorem evaluate_monotone (rules : List (Nat × Rule))
    (facts facts' hist hist' : List String)
    (hsub : ∀ x ∈ facts, x ∈ facts') :
    ∀ c ∈ (KnowledgeBase.mk rules facts hist).evaluate_rules,
      c ∈ (KnowledgeBase.mk rules facts' hist').evaluate_rules := by
  intro c hc
  rcases (mem_evaluate_iff _ c).mp hc with ⟨p, hp, hconds, rfl⟩
  exact (mem_evaluate_iff _ _).mpr ⟨p, hp, fun x hx => hsub x (hconds x hx), rfl⟩

/-- C7 witness: the weak-tooling conclusion, fired by two facts, survives
the addition of `vibration`. -/
theorem evaluate_monotone_witness :
    (⟨"possible_tooling_problem", mkRat 7 10, 0⟩ : Conclusion) ∈
      (KnowledgeBase.mk demoKB.rules
        ["dimensional_variation", "tool_wear", "vibration"] []).evaluate_rules :=
  evaluate_monotone demoKB.rules ["dimensional_variation", "tool_wear"]
    ["dimensional_variation", "tool_wear", "vibration"] [] [] (by decide) _
    (by decide)

/-- C8: the state-passing rendering of `evaluate_rules` returns the
pre-state unchanged — facts, history and rules are exactly as before the
call — and running it again on the returned state yields the same
conclusion list. -/
theorem evaluate_rules_no_mutation (kb : KnowledgeBase) :
    kb.evaluate_rules_run.1.facts = kb.facts ∧
      kb.evaluate_rules_run.1.history = kb.history ∧
      kb.evaluate_rules_run.1.rules = kb.rules ∧
      kb.evaluate_rules_run.1.evaluate_rules_run.2 = kb.evaluate_rules_run.2 :=
  ⟨rfl, rfl, rfl, rfl⟩

/-- Edge membership after `add_edge`: the old edges plus the new pair. -/
lemma add_edge_mem (g : KnowledgeGraph) (u v : String) (e : String × String) :
    e ∈ (g.add_edge u v).edges ↔ e ∈ g.edges ∨ e = (u, v) := by
  unfold KnowledgeGraph.add_edge
  by_cases h : (u, v) ∈ g.edges
  · rw [if_pos h]
    constructor
    · exact Or.inl
    · rintro (he | rfl)
      · exact he
      · exact h
  · rw [if_neg h]
    simp

/-- `add_edge` never introduces a duplicate edge. -/
lemma add_edge_nodup (g : KnowledgeGraph) (u v : String)
    (h : g.edges.Nodup) : (g.add_edge u v).edges.Nodup := by
  unfold KnowledgeGraph.add_edge
  by_cases hm : (u, v) ∈ g.edges
  · rw [if_pos hm]
    exact h
  · rw [if_neg hm]
    rw [List.nodup_append]
    exact ⟨h, List.nodup_singleton _, by
      intro e he he'
      rw [List.mem_singleton] at he'
      subst he'
      exact hm he⟩

/-- Edge membership after `add_rule_to_graph`: the old edges plus one edge
per condition of the rule. -/
lemma add_rule_to_graph_mem (conds : List String) (concl : String)
    (g : KnowledgeGraph) (e : String × String) :
    e ∈ (g.add_rule_to_graph conds concl).edges ↔
      e ∈ g.edges ∨ (e.1 ∈ conds ∧ e.2 = concl) := by
  induction conds generalizing g with
  | nil => simp [KnowledgeGraph.add_rule_to_graph]
  | cons c cs ih =>
    rw [KnowledgeGraph.add_rule_to_graph, List.foldl_cons]
    rw [show (List.foldl (fun h x => h.add_edge x concl) (g.add_edge c concl) cs) =
      (g.add_edge c concl).add_rule_to_graph cs concl from rfl]
    rw [ih, add_edge_mem]
    rw [List.mem_cons, Prod.ext_iff]
    tauto

/-- `add_rule_to_graph` preserves duplicate-freeness of the edge list. -/
lemma add_rule_to_graph_nodup (conds : List String) (concl : String)
    (g : KnowledgeGraph) (h : g.edges.Nodup) :
    (g.add_rule_to_graph conds concl).edges.Nodup := by
  induction conds generalizing g with
  | nil => exact h
  | cons c cs ih => exact ih _ (add_edge_nodup g c concl h)

/-- Edge membership in the graph folded over a rule list. -/
lemma foldGraph_mem (rules : List (Nat × Rule)) (g : KnowledgeGraph)
    (e : String × String) :
    e ∈ (rules.foldl
        (fun h p => h.add_rule_to_graph p.2.conditions p.2.conclusion) g).edges ↔
      e ∈ g.edges ∨ ∃ p ∈ rules, e.1 ∈ p.2.conditions ∧ e.2 = p.2.conclusion := by
  induction rules generalizing g with
  | nil => simp
  | cons q qs ih =>
    rw [List.foldl_cons, ih, add_rule_to_graph_mem, List.exists_mem_cons_iff,
      or_assoc]

/-- Node membership: exactly the endpoints of the inserted edges. -/
lemma nodes_mem (g : KnowledgeGraph) (x : String) :
    x ∈ g.nodes ↔ ∃ e ∈ g.edges, x = e.1 ∨ x = e.2 := by
  unfold KnowledgeGraph.nodes
  rw [List.mem_dedup, List.mem_append]
  constructor
  · rintro (hx | hx)
    · rcases List.mem_map.mp hx with ⟨e, he, rfl⟩
      exact ⟨e, he, Or.inl rfl⟩
    · rcases List.mem_map.mp hx with ⟨e, he, rfl⟩
      exact ⟨e, he, Or.inr rfl⟩
  · rintro ⟨e, he, rfl | rfl⟩
    · exact Or.inl (List.mem_map_of_mem _ he)
    · exact Or.inr (List.mem_map_of_mem _ he)

/-- A rule list holding one rule with an empty conditions list — the form
of rule set on which the node set and the label union disagree. -/
def emptyCondRules : List (Nat × Rule) :=
  [(0, ⟨[], "quality_control_issue", mkRat 1 1⟩)]

/-- C9 counterexample: for the rule set holding one empty-conditions rule,
the conclusion label is in the union of condition and conclusion labels
but is not a node of the derived graph — no edge, hence no node, is ever
inserted for that rule. -/
theorem graph_nodes_counterexample :
    "quality_control_issue" ∉ (buildGraph emptyCondRules).nodes ∧
      ∃ p ∈ emptyCondRules, "quality_control_issue" ∈ p.2.conditions ∨
        "quality_control_issue" = p.2.conclusion := by
  constructor
  · decide
  · exact ⟨_, List.mem_singleton_self _, Or.inr rfl⟩

/-- C9 amended: provided every registered rule has at least one condition
(as every rule of the built-in catalog does), the derived graph has as
node set the union of all condition and conclusion labels of the
registered rules, and as edge set exactly the (condition, conclusion)
pairs of the rules, with rules sharing a pair collapsed to a single edge
(the edge list is duplicate-free). -/
theorem graph_mirrors_rules (rules : List (Nat × Rule))
    (h : ∀ p ∈ rules, p.2.conditions ≠ []) :
    (∀ x, x ∈ (buildGraph rules).nodes ↔
        ∃ p ∈ rules, x ∈ p.2.conditions ∨ x = p.2.conclusion) ∧
      (∀ e : String × String, e ∈ (buildGraph rules).edges ↔
        ∃ p ∈ rules, e.1 ∈ p.2.conditions ∧ e.2 = p.2.conclusion) ∧
      (buildGraph rules).edges.Nodup := by
  have hedge : ∀ e : String × String, e ∈ (buildGraph rules).edges ↔
      ∃ p ∈ rules, e.1 ∈ p.2.conditions ∧ e.2 = p.2.conclusion := by
    intro e
    rw [buildGraph, foldGraph_mem]
    simp [KnowledgeGraph.emptyGraph]
  refine ⟨?_, hedge, ?_⟩
  · intro x
    rw [nodes_mem]
    constructor
    · rintro ⟨e, he, hx⟩
      rcases (hedge e).mp he with ⟨p, hp, hc, hcl⟩
      rcases hx with rfl | rfl
      · exact ⟨p, hp, Or.inl hc⟩
      · exact ⟨p, hp, Or.inr hcl⟩
    · rintro ⟨p, hp, hx | rfl⟩
      · exact ⟨(x, p.2.conclusion), (hedge _).mpr ⟨p, hp, hx, rfl⟩, Or.inl rfl⟩
      · rcases List.exists_mem_of_ne_nil _ (h p hp) with ⟨c, hc⟩
        exact ⟨(c, p.2.conclusion), (hedge _).mpr ⟨p, hp, hc, rfl⟩, Or.inr rfl⟩
  · have : ∀ (rs : List (Nat × Rule)) (g : KnowledgeGraph), g.edges.Nodup →
        (rs.foldl
          (fun h p => h.add_rule_to_graph p.2.conditions p.2.conclusion)
          g).edges.Nodup := by
      intro rs
      induction rs with
      | nil => exact fun g hg => hg
      | cons q qs ih =>
        intro g hg
        exact ih _ (add_rule_to_graph_nodup _ _ g hg)
    exact this rules KnowledgeGraph.emptyGraph (List.nodup_nil)

/-- C9 witness: on the scenario-1 rules the derived graph has
duplicate-free edges, contains `vibration` as a node, and holds the edge
from `vibration` to the severe conclusion. -/
theorem graph_mirrors_rules_witness :
    (buildGraph demoKB.rules).edges.Nodup ∧
      "vibration" ∈ (buildGraph demoKB.rules).nodes ∧
      ("vibration", "severe_tooling_issue") ∈ (buildGraph demoKB.rules).edges :=
  ⟨(graph_mirrors_rules demoKB.rules (by decide)).2.2,
    ((graph_mirrors_rules demoKB.rules (by decide)).1 "vibration").mpr
      (by decide),
    ((graph_mirrors_rules demoKB.rules (by decide)).2.1
      ("vibration", "severe_tooling_issue")).mpr (by decide)⟩

/-- C10: registration of a rule with an empty conditions list succeeds —
it is stored under the next sequential id — and any rule entry with empty
conditions fires under every fact set (the all-conditions-present check is
vacuously true), its conclusion record always appearing in the
`evaluate_rules` output. -/
theorem empty_conditions_rule_always_fires (kb kb2 : KnowledgeBase)
    (concl : String) (conf : ℚ) (rid : Nat) (r : Rule)
    (hmem : (rid, r) ∈ kb.rules) (hempty : r.conditions = []) :
    (⟨r.conclusion, r.confidence, rid⟩ : Conclusion) ∈ kb.evaluate_rules ∧
      (kb2.add_rule [] concl conf).rules.length = kb2.rules.length + 1 ∧
      (kb2.rules.length, (⟨[], concl, conf⟩ : Rule)) ∈
        (kb2.add_rule [] concl conf).rules := by
  refine ⟨(mem_evaluate_iff kb _).mpr ⟨(rid, r), hmem, ?_, rfl⟩, ?_, ?_⟩
  · intro x hx
    rw [hempty] at hx
    cases hx
  · simp [KnowledgeBase.add_rule]
  · exact List.mem_append_right _ (List.mem_singleton_self _)

/-- C10 witness: the empty-conditions rule of `kbEmptyCondRule` still fires
after `clear()` empties the fact set, and registering it was counted. -/
theorem empty_conditions_rule_always_fires_witness :
    (⟨"possible_tooling_problem", mkRat 1 1, 0⟩ : Conclusion) ∈
        (clear_indicators kbEmptyCondRule).evaluate_rules ∧
      (KnowledgeBase.empty.add_rule [] "possible_tooling_problem"
        (mkRat 1 1)).rules.length = KnowledgeBase.empty.rules.length + 1 ∧
      (KnowledgeBase.empty.rules.length,
          (⟨[], "possible_tooling_problem", mkRat 1 1⟩ : Rule)) ∈
        (KnowledgeBase.empty.add_rule [] "possible_tooling_problem"
          (mkRat 1 1)).rules :=
  empty_conditions_rule_always_fires (clear_indicators kbEmptyCondRule)
    KnowledgeBase.empty "possible_tooling_problem" (mkRat 1 1) 0
    ⟨[], "possible_tooling_problem", mkRat 1 1⟩ (by decide) rfl

example : (KnowledgeBase.empty.add_rule ["a", "b"] "c" (mkRat 7 10)).rules =
    [(0, ⟨["a", "b"], "c", mkRat 7 10⟩)] := by decide

example :
    ((KnowledgeBase.empty.add_rule ["a", "b"] "c" (mkRat 7 10)).add_fact "a"
      |>.add_fact "b").evaluate_rules = [⟨"c", mkRat 7 10, 0⟩] := by decide
